import Mathlib

/-!
Shallow embedding of `src/ros/src/waypoint_locator/modules/location_utils/locator.py`
(class `WaypointLocator`).

Coordinates are modelled as exact rationals (the source works on floating-point
coordinates; all geometric reasoning here is exact).  Distances, norms and
cosine similarities are real numbers, with `Real.sqrt` standing for
`math.sqrt` / `np.linalg.norm`.  The scipy `cKDTree` is an external library;
its `query` method is modelled as a linear scan returning the (squared
distance, index) of a closest point, keeping the least index on exact ties.
-/

/-- A 2D position, the only fields of a ROS waypoint/pose the locator reads
(`waypoint.pose.pose.position.x` / `.y`, `pose.position.x` / `.y`). -/
structure Position where
  x : ℚ
  y : ℚ
deriving DecidableEq, Repr

/-- Squared Euclidean distance between two positions (exact, rational). -/
def distSq (p1 p2 : Position) : ℚ :=
  (p1.x - p2.x) ^ 2 + (p1.y - p2.y) ^ 2

/-- Embeds `dist2d`: `math.sqrt((x1-x2)**2 + (y1-y2)**2)`. -/
noncomputable def dist2d (p1 p2 : Position) : ℝ :=
  Real.sqrt ((distSq p1 p2 : ℚ) : ℝ)

/-- Embeds `np.dot` on 2D vectors. -/
def dotQ (v1 v2 : ℚ × ℚ) : ℚ :=
  v1.1 * v2.1 + v1.2 * v2.2

/-- Embeds `np.linalg.norm` on a 2D vector. -/
noncomputable def norm2 (v : ℚ × ℚ) : ℝ :=
  Real.sqrt (((v.1 ^ 2 + v.2 ^ 2 : ℚ) : ℝ))

/-- Embeds `get_cos_angle_between`:
`product = norm(v1) * norm(v2); return 1 if product == 0 else dot(v1, v2) / product`. -/
noncomputable def get_cos_angle_between (v1 v2 : ℚ × ℚ) : ℝ :=
  let product := norm2 v1 * norm2 v2
  if product = 0 then 1 else ((dotQ v1 v2 : ℚ) : ℝ) / product

/-- Models the scipy `cKDTree.query` scan: walks the remaining points,
keeping the best (squared distance, index) pair seen so far; the best pair
is replaced only on a strictly smaller distance, so the least index wins
exact ties. -/
def kdtreeQueryGo (q : Position) : List Position → Nat → ℚ × Nat → ℚ × Nat
  | [], _, best => best
  | p :: rest, i, best =>
      if distSq q p < best.1 then kdtreeQueryGo q rest (i + 1) (distSq q p, i)
      else kdtreeQueryGo q rest (i + 1) best

/-- Models `self.kdtree.query((pose.x, pose.y))`: the (squared distance, index)
of a closest waypoint; `(0, 0)` on an empty list (unreachable for a valid Path). -/
def kdtreeQuery (pts : List Position) (q : Position) : ℚ × Nat :=
  match pts with
  | [] => (0, 0)
  | p :: rest => kdtreeQueryGo q rest 1 (distSq q p, 0)

/-- Embeds Python `range(a, b, -1)`: the descending list `[a, a-1, ..., b+1]`
(empty when `a ≤ b`). -/
def pyRangeDown (a b : Nat) : List Nat :=
  (List.range' (b + 1) (a - b)).reverse

/-- The candidate indices scanned by `deal_base_waypoints_overlap`:
`range(len(base_waypoints)-1, len(base_waypoints)/2, -1)` (Python 2 integer
division). -/
def scannedIndices (l : List Position) : List Nat :=
  pyRangeDown (l.length - 1) (l.length / 2)

/-- Embeds `vector_start_2nd`: the vector from the first to the second waypoint. -/
def vector_start_2nd (l : List Position) : ℚ × ℚ :=
  ((l.getD 1 ⟨0, 0⟩).x - (l.getD 0 ⟨0, 0⟩).x,
   (l.getD 1 ⟨0, 0⟩).y - (l.getD 0 ⟨0, 0⟩).y)

/-- Embeds `vector_1st_last` at scan index `i`: the vector from the first
waypoint to waypoint `i`. -/
def vector_1st_to (l : List Position) (i : Nat) : ℚ × ℚ :=
  ((l.getD i ⟨0, 0⟩).x - (l.getD 0 ⟨0, 0⟩).x,
   (l.getD i ⟨0, 0⟩).y - (l.getD 0 ⟨0, 0⟩).y)

/-- The loop-closure condition at scan index `i`:
`np.dot(vector_start_2nd, vector_1st_last) < 0` and
`dist2d(base_waypoints[0], base_waypoints[i]) < 15`. -/
def qualifies (l : List Position) (i : Nat) : Prop :=
  dotQ (vector_start_2nd l) (vector_1st_to l i) < 0 ∧
    dist2d (l.getD 0 ⟨0, 0⟩) (l.getD i ⟨0, 0⟩) < 15

/-- Embeds the scan loop of `deal_base_waypoints_overlap` over a given
candidate index list: the first index whose dot product is negative and whose
distance to waypoint 0 is under 15 (the `break` fires only when both hold). -/
noncomputable def findEndIdx (l : List Position) : List Nat → Option Nat
  | [] => none
  | i :: rest =>
      if dotQ (vector_start_2nd l) (vector_1st_to l i) < 0 then
        if dist2d (l.getD 0 ⟨0, 0⟩) (l.getD i ⟨0, 0⟩) < 15 then some i
        else findEndIdx l rest
      else findEndIdx l rest

/-- Embeds `deal_base_waypoints_overlap`: when the scan finds an `end_idx`,
return `base_waypoints[:end_idx+1]`; otherwise (end_idx == -1, the "haven't
overlap" print) return the list unchanged. -/
noncomputable def deal_base_waypoints_overlap (l : List Position) : List Position :=
  match findEndIdx l (scannedIndices l) with
  | none => l
  | some i => l.take (i + 1)

/-- Embeds the arc-length accumulation loop of `__init__` after the first
waypoint: given the previous waypoint and the running total, produce the
`s` entries of the remaining waypoints and the final total. -/
noncomputable def accumulateS (prev : Position) : List Position → ℝ → List ℝ × ℝ
  | [], total => ([], total)
  | w :: rest, total =>
      let total' := total + dist2d prev w
      let r := accumulateS w rest total'
      (total' :: r.1, r.2)

/-- Embeds the whole `__init__` loop: the first waypoint gets `s = 0`
(`previous_waypoint is None`), each later waypoint gets the running total
after adding `dist2d(previous, current)`; also returns the final total. -/
noncomputable def computeFrenetS : List Position → List ℝ × ℝ
  | [] => ([], 0)
  | w :: rest =>
      let r := accumulateS w rest 0
      (0 :: r.1, r.2)

/-- State built by `WaypointLocator.__init__`: the (possibly trimmed) waypoint
list, the per-waypoint Frenet `s` coordinates, and the track length.  The
kdtree over `xy_pairs` is modelled by `kdtreeQuery` on `all_ref_waypoints`
(same points, same order). -/
structure WaypointLocator where
  all_ref_waypoints : List Position
  waypoints_frenet_s : List ℝ
  length_of_track : ℝ

/-- Embeds `WaypointLocator.__init__(base_waypoints)`. -/
noncomputable def build (base_waypoints : List Position) : WaypointLocator :=
  let l := deal_base_waypoints_overlap base_waypoints
  let r := computeFrenetS l
  ⟨l, r.1, r.2⟩

/-- Embeds `locate_waypoints_around(pose)`: kdtree lookup of the closest
waypoint `j`, wraparound neighbours `i` and `k`, the two cosine similarities,
and the final `(ca1 > ca2) and (j, i, j) or (j, j, k)` selection (both tuples
are truthy, so this is an if-else). -/
noncomputable def locate_waypoints_around (loc : WaypointLocator) (pose : Position) :
    Nat × Nat × Nat :=
  let n := loc.all_ref_waypoints.length
  let j := (kdtreeQuery loc.all_ref_waypoints pose).2
  let i0 : Int := (j : Int) - 1
  let i : Nat := (if i0 < 0 then i0 + (n : Int) else i0).toNat
  let k0 := j + 1
  let k : Nat := if k0 ≥ n then k0 - n else k0
  let wp := fun m => loc.all_ref_waypoints.getD m ⟨0, 0⟩
  let v_j_i : ℚ × ℚ := ((wp i).x - (wp j).x, (wp i).y - (wp j).y)
  let v_j_k : ℚ × ℚ := ((wp k).x - (wp j).x, (wp k).y - (wp j).y)
  let v_j_p : ℚ × ℚ := (pose.x - (wp j).x, pose.y - (wp j).y)
  let ca1 := get_cos_angle_between v_j_p v_j_i
  let ca2 := get_cos_angle_between v_j_p v_j_k
  if ca1 > ca2 then (j, i, j) else (j, j, k)

/-- Unit square corners, the raw path of the spec scenarios. -/
def squareWps : List Position := [⟨0, 0⟩, ⟨10, 0⟩, ⟨10, 10⟩, ⟨0, 10⟩]

/-- The locator built on the plain unit square. -/
noncomputable def squareLoc : WaypointLocator := build squareWps

/-- A 3-waypoint path whose last waypoint duplicates the first's position. -/
def dupWps : List Position := [⟨0, 0⟩, ⟨1, 0⟩, ⟨0, 0⟩]

/-- The locator built on the duplicate-position path. -/
noncomputable def dupLoc : WaypointLocator := build dupWps

/-- The index returned by the nearest-neighbour query for a pose (the `j` of
`locate_waypoints_around`). -/
def nearestIdx (loc : WaypointLocator) (pose : Position) : Nat :=
  (kdtreeQuery loc.all_ref_waypoints pose).2

/-- Waypoint position at index `m` of the locator's path. -/
def wpAt (loc : WaypointLocator) (m : Nat) : Position :=
  loc.all_ref_waypoints.getD m ⟨0, 0⟩

/-- The 2D vector from `a` to `b`. -/
def vecBetween (a b : Position) : ℚ × ℚ :=
  (b.x - a.x, b.y - a.y)

/-- Cosine similarity `ca1` as the spec describes it: between the vector from
waypoint `j` to the query pose and the vector from waypoint `j` to its
path-order predecessor `(j - 1) mod n`. -/
noncomputable def ca1Of (loc : WaypointLocator) (pose : Position) : ℝ :=
  get_cos_angle_between
    (vecBetween (wpAt loc (nearestIdx loc pose)) pose)
    (vecBetween (wpAt loc (nearestIdx loc pose))
      (wpAt loc ((nearestIdx loc pose + loc.all_ref_waypoints.length - 1) %
        loc.all_ref_waypoints.length)))

/-- Cosine similarity `ca2` as the spec describes it: between the vector from
waypoint `j` to the query pose and the vector from waypoint `j` to its
path-order successor `(j + 1) mod n`. -/
noncomputable def ca2Of (loc : WaypointLocator) (pose : Position) : ℝ :=
  get_cos_angle_between
    (vecBetween (wpAt loc (nearestIdx loc pose)) pose)
    (vecBetween (wpAt loc (nearestIdx loc pose))
      (wpAt loc ((nearestIdx loc pose + 1) % loc.all_ref_waypoints.length)))

/-- The unit square corners followed by one closing point `p` (the raw input of
spec scenario A). -/
def squareClosed (p : Position) : List Position :=
  [⟨0, 0⟩, ⟨10, 0⟩, ⟨10, 10⟩, ⟨0, 10⟩, p]

/-! Helper lemmas about the scan-range list. -/

lemma mem_pyRangeDown {a b i : Nat} : i ∈ pyRangeDown a b ↔ b < i ∧ i ≤ a := by
  simp only [pyRangeDown, List.mem_reverse, List.mem_range'_1]
  omega

lemma pyRangeDown_pairwise (a b : Nat) : (pyRangeDown a b).Pairwise (· > ·) := by
  unfold pyRangeDown
  rw [List.pairwise_reverse]
  exact List.pairwise_lt_range' _ _

lemma pyRangeDown_cons {a b : Nat} (h : b < a) :
    pyRangeDown a b = a :: pyRangeDown (a - 1) b := by
  unfold pyRangeDown
  have h1 : a - b = (a - 1 - b) + 1 := by omega
  rw [h1, List.range'_1_concat, List.reverse_append]
  have h2 : b + 1 + (a - 1 - b) = a := by omega
  simp [h2]

/-! Decidability of the loop-closure condition (classical on the real
distance comparison). -/

noncomputable instance qualifiesDec (l : List Position) (i : Nat) :
    Decidable (qualifies l i) := by
  unfold qualifies
  infer_instance

lemma findEndIdx_cons (l : List Position) (a : Nat) (rest : List Nat) :
    findEndIdx l (a :: rest) =
      if qualifies l a then some a else findEndIdx l rest := by
  by_cases h1 : dotQ (vector_start_2nd l) (vector_1st_to l a) < 0
  · by_cases h2 : dist2d (l.getD 0 ⟨0, 0⟩) (l.getD a ⟨0, 0⟩) < 15
    · simp [findEndIdx, qualifies, h1, h2]
    · simp [findEndIdx, qualifies, h1, h2]
  · simp [findEndIdx, qualifies, h1]

lemma findEndIdx_eq_none_iff {l : List Position} {idxs : List Nat} :
    findEndIdx l idxs = none ↔ ∀ i ∈ idxs, ¬ qualifies l i := by
  induction idxs with
  | nil => simp [findEndIdx]
  | cons a rest ih =>
      rw [findEndIdx_cons]
      by_cases h : qualifies l a
      · simp [h]
      · simp [h, ih]

lemma findEndIdx_eq_some {l : List Position} {idxs : List Nat} {i : Nat}
    (h : findEndIdx l idxs = some i) : i ∈ idxs ∧ qualifies l i := by
  induction idxs with
  | nil => simp [findEndIdx] at h
  | cons a rest ih =>
      rw [findEndIdx_cons] at h
      by_cases ha : qualifies l a
      · rw [if_pos ha] at h
        injection h with h
        subst h
        exact ⟨List.mem_cons_self _ _, ha⟩
      · rw [if_neg ha] at h
        rcases ih h with ⟨hm, hq⟩
        exact ⟨List.mem_cons_of_mem _ hm, hq⟩

lemma findEndIdx_largest {l : List Position} {idxs : List Nat} {i : Nat}
    (hp : idxs.Pairwise (· > ·)) (h : findEndIdx l idxs = some i) :
    ∀ i' ∈ idxs, qualifies l i' → i' ≤ i := by
  induction idxs with
  | nil => simp
  | cons a rest ih =>
      rw [findEndIdx_cons] at h
      rcases List.pairwise_cons.mp hp with ⟨ha_gt, hp'⟩
      by_cases ha : qualifies l a
      · rw [if_pos ha] at h
        injection h with h
        subst h
        intro i' hi' _
        rcases List.mem_cons.mp hi' with rfl | hi'
        · exact le_refl _
        · exact le_of_lt (ha_gt _ hi')
      · rw [if_neg ha] at h
        intro i' hi' hq
        rcases List.mem_cons.mp hi' with rfl | hi'
        · exact absurd hq ha
        · exact ih hp' h _ hi' hq

lemma findEndIdx_cons_of_qualifies {l : List Position} {a : Nat} (rest : List Nat)
    (ha : qualifies l a) : findEndIdx l (a :: rest) = some a := by
  rw [findEndIdx_cons, if_pos ha]

/-! Basic facts about the exact geometry helpers. -/

lemma distSq_nonneg (p q : Position) : 0 ≤ distSq p q := by
  unfold distSq
  positivity

lemma distSq_self (p : Position) : distSq p p = 0 := by
  simp [distSq]

lemma distSq_eq_zero_iff {p q : Position} : distSq p q = 0 ↔ p = q := by
  cases p with
  | mk px py =>
      cases q with
      | mk qx qy =>
          unfold distSq
          constructor
          · intro h
            have hx : (px - qx) ^ 2 = 0 := by nlinarith [sq_nonneg (px - qx), sq_nonneg (py - qy)]
            have hy : (py - qy) ^ 2 = 0 := by nlinarith [sq_nonneg (px - qx), sq_nonneg (py - qy)]
            have hx' : px = qx := by nlinarith [sq_nonneg (px - qx)]
            have hy' : py = qy := by nlinarith [sq_nonneg (py - qy)]
            simp [hx', hy']
          · intro h
            injection h with h1 h2
            simp [h1, h2]

lemma dist2d_nonneg (p q : Position) : 0 ≤ dist2d p q :=
  Real.sqrt_nonneg _

/-! Specification of the nearest-neighbour query model. -/

lemma kdtreeQueryGo_spec (q : Position) :
    ∀ (l : List Position) (i : Nat) (best : ℚ × Nat),
      (kdtreeQueryGo q l i best = best ∨
        ∃ m, ∃ hm : m < l.length,
          kdtreeQueryGo q l i best = (distSq q (l.get ⟨m, hm⟩), i + m)) ∧
      (kdtreeQueryGo q l i best).1 ≤ best.1 ∧
      (∀ m (hm : m < l.length),
        (kdtreeQueryGo q l i best).1 ≤ distSq q (l.get ⟨m, hm⟩)) ∧
      (best.2 < i → (kdtreeQueryGo q l i best).2 < i + l.length) := by
  intro l
  induction l with
  | nil =>
      intro i best
      refine ⟨Or.inl rfl, le_refl _, ?_, ?_⟩
      · intro m hm
        simp at hm
      · intro h
        simpa using h
  | cons p rest ih =>
      intro i best
      by_cases hcmp : distSq q p < best.1
      · have hgo : kdtreeQueryGo q (p :: rest) i best =
            kdtreeQueryGo q rest (i + 1) (distSq q p, i) := by
          simp [kdtreeQueryGo, hcmp]
        rcases ih (i + 1) (distSq q p, i) with ⟨hshape, hle, hmin, hidx⟩
        refine ⟨?_, ?_, ?_, ?_⟩
        · rcases hshape with heq | ⟨m, hm, heq⟩
          · right
            refine ⟨0, by simp, ?_⟩
            rw [hgo, heq]
            simp
          · right
            refine ⟨m + 1, by simpa using Nat.succ_lt_succ hm, ?_⟩
            rw [hgo, heq]
            simp
            omega
        · rw [hgo]
          exact le_of_lt (lt_of_le_of_lt hle hcmp)
        · intro m hm
          rw [hgo]
          match m with
          | 0 =>
              exact le_trans hle (by simp)
          | Nat.succ m' =>
              have hm' : m' < rest.length := by simpa using hm
              have := hmin m' hm'
              simpa using this
        · intro _
          rw [hgo]
          have := hidx (by omega)
          simp at this ⊢
          omega
      · have hgo : kdtreeQueryGo q (p :: rest) i best =
            kdtreeQueryGo q rest (i + 1) best := by
          simp [kdtreeQueryGo, hcmp]
        rcases ih (i + 1) best with ⟨hshape, hle, hmin, hidx⟩
        refine ⟨?_, ?_, ?_, ?_⟩
        · rcases hshape with heq | ⟨m, hm, heq⟩
          · left
            rw [hgo, heq]
          · right
            refine ⟨m + 1, by simpa using Nat.succ_lt_succ hm, ?_⟩
            rw [hgo, heq]
            simp
            omega
        · rw [hgo]
          exact hle
        · intro m hm
          rw [hgo]
          match m with
          | 0 =>
              have : best.1 ≤ distSq q p := le_of_not_lt hcmp
              exact le_trans hle (by simpa using this)
          | Nat.succ m' =>
              have hm' : m' < rest.length := by simpa using hm
              have := hmin m' hm'
              simpa using this
        · intro hb
          rw [hgo]
          have := hidx (by omega)
          simp at this ⊢
          omega

lemma kdtreeQuery_index_lt {pts : List Position} (q : Position) (hne : pts ≠ []) :
    (kdtreeQuery pts q).2 < pts.length := by
  match pts with
  | [] => exact absurd rfl hne
  | p :: rest =>
      have h := (kdtreeQueryGo_spec q rest 1 (distSq q p, 0)).2.2.2 (by omega)
      simp only [kdtreeQuery, List.length_cons]
      omega

lemma kdtreeQuery_min {pts : List Position} (q : Position) :
    ∀ m (hm : m < pts.length), (kdtreeQuery pts q).1 ≤ distSq q (pts.get ⟨m, hm⟩) := by
  match pts with
  | [] =>
      intro m hm
      simp at hm
  | p :: rest =>
      intro m hm
      rcases kdtreeQueryGo_spec q rest 1 (distSq q p, 0) with ⟨_, hle, hmin, _⟩
      match m with
      | 0 => simpa [kdtreeQuery] using hle
      | Nat.succ m' =>
          have hm' : m' < rest.length := by simpa using hm
          simpa [kdtreeQuery] using hmin m' hm'

lemma kdtreeQuery_val_eq {pts : List Position} (q : Position) (hne : pts ≠ []) :
    ∃ hm : (kdtreeQuery pts q).2 < pts.length,
      (kdtreeQuery pts q).1 = distSq q (pts.get ⟨(kdtreeQuery pts q).2, hm⟩) := by
  refine ⟨kdtreeQuery_index_lt q hne, ?_⟩
  match pts with
  | p :: rest =>
      rcases (kdtreeQueryGo_spec q rest 1 (distSq q p, 0)).1 with heq | ⟨m, hm, heq⟩
      · simp [kdtreeQuery, heq]
      · simp only [kdtreeQuery, heq]
        have h1m : 1 + m = m + 1 := Nat.add_comm 1 m
        simp [h1m]

/-! Arc-length accumulation lemmas. -/

lemma accumulateS_length (prev : Position) (l : List Position) (total : ℝ) :
    (accumulateS prev l total).1.length = l.length := by
  induction l generalizing prev total with
  | nil => simp [accumulateS]
  | cons w rest ih =>
      simp [accumulateS, ih]

lemma accumulateS_total (prev : Position) (l : List Position) (total : ℝ) :
    (accumulateS prev l total).2 = ((accumulateS prev l total).1).getLastD total := by
  induction l generalizing prev total with
  | nil => simp [accumulateS]
  | cons w rest ih =>
      simp only [accumulateS, List.getLastD_cons]
      exact ih w (total + dist2d prev w)

lemma accumulateS_step (l : List Position) :
    ∀ (prev : Position) (total : ℝ) (m : Nat), m + 1 < (prev :: l).length →
      (total :: (accumulateS prev l total).1).getD (m + 1) 0 =
        (total :: (accumulateS prev l total).1).getD m 0 +
          dist2d ((prev :: l).getD m ⟨0, 0⟩) ((prev :: l).getD (m + 1) ⟨0, 0⟩) := by
  induction l with
  | nil =>
      intro prev total m hm
      simp at hm
  | cons w rest ih =>
      intro prev total m hm
      match m with
      | 0 =>
          simp [accumulateS]
      | Nat.succ m' =>
          have hm' : m' + 1 < (w :: rest).length := by
            simpa using hm
          have := ih w (total + dist2d prev w) m' hm'
          simpa [accumulateS] using this

lemma accumulateS_chain (l : List Position) :
    ∀ (prev : Position) (total : ℝ),
      List.Chain' (· ≤ ·) (total :: (accumulateS prev l total).1) := by
  induction l with
  | nil =>
      intro prev total
      simp [accumulateS]
  | cons w rest ih =>
      intro prev total
      have h1 : total ≤ total + dist2d prev w := by
        have := dist2d_nonneg prev w
        linarith
      have h2 := ih w (total + dist2d prev w)
      simpa [accumulateS, List.chain'_cons] using
        (List.chain'_cons.mpr ⟨h1, h2⟩ :
          List.Chain' (· ≤ ·)
            (total :: (total + dist2d prev w) :: (accumulateS w rest (total + dist2d prev w)).1))

lemma computeFrenetS_fst (w : Position) (rest : List Position) :
    (computeFrenetS (w :: rest)).1 = 0 :: (accumulateS w rest 0).1 := by
  simp [computeFrenetS]

lemma computeFrenetS_snd (w : Position) (rest : List Position) :
    (computeFrenetS (w :: rest)).2 = (accumulateS w rest 0).2 := by
  simp [computeFrenetS]

/-! Wraparound index arithmetic of `locate_waypoints_around`. -/

lemma wrap_pred_eq {j n : Nat} (hj : j < n) :
    (if ((j : Int) - 1) < 0 then (j : Int) - 1 + (n : Int) else (j : Int) - 1).toNat
      = (j + n - 1) % n := by
  rcases Nat.eq_zero_or_pos j with rfl | hjpos
  · have h1 : ((0 : Nat) : Int) - 1 < 0 := by omega
    rw [if_pos h1]
    have h2 : (((0 : Nat) : Int) - 1 + (n : Int)).toNat = n - 1 := by omega
    rw [h2]
    have h3 : 0 + n - 1 = n - 1 := by omega
    rw [h3]
    exact (Nat.mod_eq_of_lt (by omega)).symm
  · have h1 : ¬ ((j : Int) - 1 < 0) := by omega
    rw [if_neg h1]
    have h2 : ((j : Int) - 1).toNat = j - 1 := by omega
    rw [h2]
    have h3 : j + n - 1 = (j - 1) + n := by omega
    rw [h3, Nat.add_mod_right]
    exact (Nat.mod_eq_of_lt (by omega)).symm

lemma wrap_succ_eq {j n : Nat} (hj : j < n) :
    (if j + 1 ≥ n then j + 1 - n else j + 1) = (j + 1) % n := by
  by_cases h : j + 1 ≥ n
  · rw [if_pos h]
    have h1 : j + 1 = n := by omega
    simp [h1]
  · rw [if_neg h]
    exact (Nat.mod_eq_of_lt (by omega)).symm

/-- Unfolded form of `locate_waypoints_around`, with the wraparound indices
written as `mod n` and the cosines written through `ca1Of`/`ca2Of`. -/
lemma locate_eq_cases (loc : WaypointLocator) (pose : Position)
    (hne : loc.all_ref_waypoints ≠ []) :
    locate_waypoints_around loc pose =
      if ca1Of loc pose > ca2Of loc pose then
        (nearestIdx loc pose,
         (nearestIdx loc pose + loc.all_ref_waypoints.length - 1) %
           loc.all_ref_waypoints.length,
         nearestIdx loc pose)
      else
        (nearestIdx loc pose, nearestIdx loc pose,
         (nearestIdx loc pose + 1) % loc.all_ref_waypoints.length) := by
  have hj : (kdtreeQuery loc.all_ref_waypoints pose).2 < loc.all_ref_waypoints.length :=
    kdtreeQuery_index_lt pose hne
  simp only [locate_waypoints_around, ca1Of, ca2Of, nearestIdx, wpAt, vecBetween]
  rw [wrap_pred_eq hj, wrap_succ_eq hj]

/-! Structure of the loop-closure trimming result. -/

lemma deal_overlap_of_none {l : List Position}
    (hfe : findEndIdx l (scannedIndices l) = none) :
    deal_base_waypoints_overlap l = l := by
  unfold deal_base_waypoints_overlap
  rw [hfe]

lemma deal_overlap_of_some {l : List Position} {i : Nat}
    (hfe : findEndIdx l (scannedIndices l) = some i) :
    deal_base_waypoints_overlap l = l.take (i + 1) := by
  unfold deal_base_waypoints_overlap
  rw [hfe]

lemma scannedIndices_pairwise (l : List Position) :
    (scannedIndices l).Pairwise (· > ·) := by
  unfold scannedIndices
  exact pyRangeDown_pairwise _ _

lemma mem_scannedIndices {l : List Position} {i : Nat} :
    i ∈ scannedIndices l ↔ l.length / 2 < i ∧ i ≤ l.length - 1 := by
  unfold scannedIndices
  exact mem_pyRangeDown

lemma deal_overlap_cases (l : List Position) :
    (findEndIdx l (scannedIndices l) = none ∧ deal_base_waypoints_overlap l = l) ∨
      ∃ i, findEndIdx l (scannedIndices l) = some i ∧
        deal_base_waypoints_overlap l = l.take (i + 1) ∧
        l.length / 2 < i ∧ i ≤ l.length - 1 ∧ qualifies l i := by
  cases hfe : findEndIdx l (scannedIndices l) with
  | none => exact Or.inl ⟨rfl, deal_overlap_of_none hfe⟩
  | some i =>
      right
      rcases findEndIdx_eq_some hfe with ⟨hmem, hq⟩
      rcases mem_scannedIndices.mp hmem with ⟨h1, h2⟩
      exact ⟨i, rfl, deal_overlap_of_some hfe, h1, h2, hq⟩

lemma deal_overlap_length (l : List Position) (h : 3 ≤ l.length) :
    l.length / 2 + 2 ≤ (deal_base_waypoints_overlap l).length ∧
    ∃ t, deal_base_waypoints_overlap l ++ t = l := by
  rcases deal_overlap_cases l with ⟨_, heq⟩ | ⟨i, _, heq, h1, h2, _⟩
  · rw [heq]
    exact ⟨by omega, [], by simp⟩
  · rw [heq]
    constructor
    · rw [List.length_take]
      omega
    · exact ⟨l.drop (i + 1), List.take_append_drop _ _⟩

lemma deal_overlap_ne_nil {l : List Position} (h : 3 ≤ l.length) :
    deal_base_waypoints_overlap l ≠ [] := by
  have hlen := (deal_overlap_length l h).1
  intro hnil
  rw [hnil] at hlen
  simp at hlen

lemma getD_take_eq {l : List Position} {n m : Nat} (h : m < n) :
    (l.take n).getD m ⟨0, 0⟩ = l.getD m ⟨0, 0⟩ := by
  rw [List.getD_eq_getElem?_getD, List.getD_eq_getElem?_getD,
    List.getElem?_take_of_lt h]

/-! Evaluation of the preprocessor on the concrete paths. -/

lemma squareLoc_wps : squareLoc.all_ref_waypoints = squareWps := by
  have h1 : scannedIndices squareWps = [3] := by decide
  have h2 : findEndIdx squareWps [3] = none := by
    rw [findEndIdx_cons, if_neg, findEndIdx]
    intro hq
    have hd : dotQ (vector_start_2nd squareWps) (vector_1st_to squareWps 3) = 0 := by
      norm_num [dotQ, vector_start_2nd, vector_1st_to, squareWps]
    have hdot := hq.1
    rw [hd] at hdot
    exact absurd hdot (lt_irrefl 0)
  show (build squareWps).all_ref_waypoints = squareWps
  simp only [build]
  rw [deal_overlap_of_none (by rw [h1]; exact h2)]

lemma dupLoc_wps : dupLoc.all_ref_waypoints = dupWps := by
  have h1 : scannedIndices dupWps = [2] := by decide
  have h2 : findEndIdx dupWps [2] = none := by
    rw [findEndIdx_cons, if_neg, findEndIdx]
    intro hq
    have hd : dotQ (vector_start_2nd dupWps) (vector_1st_to dupWps 2) = 0 := by
      norm_num [dotQ, vector_start_2nd, vector_1st_to, dupWps]
    have hdot := hq.1
    rw [hd] at hdot
    exact absurd hdot (lt_irrefl 0)
  show (build dupWps).all_ref_waypoints = dupWps
  simp only [build]
  rw [deal_overlap_of_none (by rw [h1]; exact h2)]

/-! Cosine of a zero vector. -/

lemma norm2_zero : norm2 (0, 0) = 0 := by
  unfold norm2
  norm_num

lemma get_cos_zero_left (v : ℚ × ℚ) : get_cos_angle_between (0, 0) v = 1 := by
  simp only [get_cos_angle_between, norm2_zero, zero_mul, if_pos]

lemma get_cos_zero_right (v : ℚ × ℚ) : get_cos_angle_between v (0, 0) = 1 := by
  simp only [get_cos_angle_between, norm2_zero, mul_zero, if_pos]

/-- The `nearest` component of the result is the kdtree index in both branches. -/
lemma locate_fst (loc : WaypointLocator) (pose : Position)
    (hne : loc.all_ref_waypoints ≠ []) :
    (locate_waypoints_around loc pose).1 = nearestIdx loc pose := by
  rw [locate_eq_cases loc pose hne]
  by_cases h : ca1Of loc pose > ca2Of loc pose
  · rw [if_pos h]
  · rw [if_neg h]

lemma square_ne_nil : squareLoc.all_ref_waypoints ≠ [] := by
  rw [squareLoc_wps]
  decide

lemma nearest_square_origin : nearestIdx squareLoc ⟨0, 0⟩ = 0 := by
  unfold nearestIdx
  rw [squareLoc_wps]
  norm_num [kdtreeQuery, kdtreeQueryGo, distSq, squareWps]

/-! Claim theorems. -/

/-- C3 (confirmed): for every query pose on a path with at least 3 waypoints,
with `j` the nearest-neighbour index, `i = (j - 1) mod n` and `k = (j + 1) mod n`:
if `ca1 > ca2` the result is `(nearest, behind, ahead) = (j, i, j)`, otherwise
it is `(j, j, k)`. -/
theorem locate_branch_selection (loc : WaypointLocator) (pose : Position)
    (h : 3 ≤ loc.all_ref_waypoints.length) :
    (ca1Of loc pose > ca2Of loc pose →
      locate_waypoints_around loc pose =
        (nearestIdx loc pose,
         (nearestIdx loc pose + loc.all_ref_waypoints.length - 1) %
           loc.all_ref_waypoints.length,
         nearestIdx loc pose)) ∧
    (¬ ca1Of loc pose > ca2Of loc pose →
      locate_waypoints_around loc pose =
        (nearestIdx loc pose, nearestIdx loc pose,
         (nearestIdx loc pose + 1) % loc.all_ref_waypoints.length)) := by
  have hne : loc.all_ref_waypoints ≠ [] := by
    intro hnil
    rw [hnil] at h
    simp at h
  rw [locate_eq_cases loc pose hne]
  constructor
  · intro hgt
    rw [if_pos hgt]
  · intro hle
    rw [if_neg hle]

/-- Witness for C3 at the unit square and pose (5, 5). -/
theorem locate_branch_selection_witness :
    3 ≤ squareLoc.all_ref_waypoints.length ∧
    ((ca1Of squareLoc ⟨5, 5⟩ > ca2Of squareLoc ⟨5, 5⟩ →
      locate_waypoints_around squareLoc ⟨5, 5⟩ =
        (nearestIdx squareLoc ⟨5, 5⟩,
         (nearestIdx squareLoc ⟨5, 5⟩ + squareLoc.all_ref_waypoints.length - 1) %
           squareLoc.all_ref_waypoints.length,
         nearestIdx squareLoc ⟨5, 5⟩)) ∧
    (¬ ca1Of squareLoc ⟨5, 5⟩ > ca2Of squareLoc ⟨5, 5⟩ →
      locate_waypoints_around squareLoc ⟨5, 5⟩ =
        (nearestIdx squareLoc ⟨5, 5⟩, nearestIdx squareLoc ⟨5, 5⟩,
         (nearestIdx squareLoc ⟨5, 5⟩ + 1) % squareLoc.all_ref_waypoints.length))) := by
  have h : 3 ≤ squareLoc.all_ref_waypoints.length := by
    rw [squareLoc_wps]
    decide
  exact ⟨h, locate_branch_selection squareLoc ⟨5, 5⟩ h⟩

/-- C1 (amended): the triple returned by `locate_waypoints_around` consists of
valid indices in `[0, n)`, and it is either `(j, (j-1) mod n, j)` or
`(j, j, (j+1) mod n)`: one of `behind`/`ahead` is a path-order neighbour of
`nearest` and the other equals `nearest` itself. -/
theorem locate_result_within_neighbors (loc : WaypointLocator) (pose : Position)
    (h : 3 ≤ loc.all_ref_waypoints.length) :
    (locate_waypoints_around loc pose).1 < loc.all_ref_waypoints.length ∧
    (locate_waypoints_around loc pose).2.1 < loc.all_ref_waypoints.length ∧
    (locate_waypoints_around loc pose).2.2 < loc.all_ref_waypoints.length ∧
    (locate_waypoints_around loc pose =
        ((locate_waypoints_around loc pose).1,
         ((locate_waypoints_around loc pose).1 + loc.all_ref_waypoints.length - 1) %
           loc.all_ref_waypoints.length,
         (locate_waypoints_around loc pose).1) ∨
      locate_waypoints_around loc pose =
        ((locate_waypoints_around loc pose).1,
         (locate_waypoints_around loc pose).1,
         ((locate_waypoints_around loc pose).1 + 1) % loc.all_ref_waypoints.length)) := by
  have hne : loc.all_ref_waypoints ≠ [] := by
    intro hnil
    rw [hnil] at h
    simp at h
  have hn : 0 < loc.all_ref_waypoints.length := by
    cases hl : loc.all_ref_waypoints with
    | nil => exact absurd hl hne
    | cons a t => simp
  have hj : nearestIdx loc pose < loc.all_ref_waypoints.length :=
    kdtreeQuery_index_lt pose hne
  rw [locate_eq_cases loc pose hne]
  by_cases hca : ca1Of loc pose > ca2Of loc pose
  · rw [if_pos hca]
    exact ⟨hj, Nat.mod_lt _ hn, hj, Or.inl rfl⟩
  · rw [if_neg hca]
    exact ⟨hj, hj, Nat.mod_lt _ hn, Or.inr rfl⟩

/-- Witness for the amended C1 at the unit square and pose (7, 2). -/
theorem locate_result_within_neighbors_witness :
    3 ≤ squareLoc.all_ref_waypoints.length ∧
    ((locate_waypoints_around squareLoc ⟨7, 2⟩).1 < squareLoc.all_ref_waypoints.length ∧
    (locate_waypoints_around squareLoc ⟨7, 2⟩).2.1 < squareLoc.all_ref_waypoints.length ∧
    (locate_waypoints_around squareLoc ⟨7, 2⟩).2.2 < squareLoc.all_ref_waypoints.length ∧
    (locate_waypoints_around squareLoc ⟨7, 2⟩ =
        ((locate_waypoints_around squareLoc ⟨7, 2⟩).1,
         ((locate_waypoints_around squareLoc ⟨7, 2⟩).1 + squareLoc.all_ref_waypoints.length - 1) %
           squareLoc.all_ref_waypoints.length,
         (locate_waypoints_around squareLoc ⟨7, 2⟩).1) ∨
      locate_waypoints_around squareLoc ⟨7, 2⟩ =
        ((locate_waypoints_around squareLoc ⟨7, 2⟩).1,
         (locate_waypoints_around squareLoc ⟨7, 2⟩).1,
         ((locate_waypoints_around squareLoc ⟨7, 2⟩).1 + 1) %
           squareLoc.all_ref_waypoints.length))) := by
  have h : 3 ≤ squareLoc.all_ref_waypoints.length := by
    rw [squareLoc_wps]
    decide
  exact ⟨h, locate_result_within_neighbors squareLoc ⟨7, 2⟩ h⟩

/-- Counterexample to C1 as stated: at the unit square with the query pose at
waypoint 0's exact position, the returned `behind` equals `nearest` itself
(the code returns `(j, j, k)` here), contradicting the claim that `behind` and
`ahead` are never `nearest`. -/
theorem locate_behind_eq_nearest_cex :
    (locate_waypoints_around squareLoc ⟨0, 0⟩).2.1 =
      (locate_waypoints_around squareLoc ⟨0, 0⟩).1 := by
  have hne := square_ne_nil
  have hwp : wpAt squareLoc (nearestIdx squareLoc ⟨0, 0⟩) = ⟨0, 0⟩ := by
    rw [nearest_square_origin]
    unfold wpAt
    rw [squareLoc_wps]
    rfl
  have hv : vecBetween (wpAt squareLoc (nearestIdx squareLoc ⟨0, 0⟩)) ⟨0, 0⟩ =
      ((0 : ℚ), (0 : ℚ)) := by
    rw [hwp]
    show ((0 : ℚ) - 0, (0 : ℚ) - 0) = ((0 : ℚ), (0 : ℚ))
    norm_num
  have hca1 : ca1Of squareLoc ⟨0, 0⟩ = 1 := by
    unfold ca1Of
    rw [hv]
    exact get_cos_zero_left _
  have hca2 : ca2Of squareLoc ⟨0, 0⟩ = 1 := by
    unfold ca2Of
    rw [hv]
    exact get_cos_zero_left _
  rw [locate_eq_cases squareLoc ⟨0, 0⟩ hne,
    if_neg (by rw [hca1, hca2]; exact lt_irrefl 1)]

/-- C9 (amended): on a path whose waypoint positions are pairwise distinct,
`locate_waypoints_around` at the exact position of waypoint `j` returns
`nearest = j`.  (With duplicated positions the nearest-neighbour query can
return another index at distance 0, see the counterexample.) -/
theorem locate_at_waypoint_nearest (loc : WaypointLocator) (j : Nat)
    (hnd : loc.all_ref_waypoints.Nodup) (h3 : 3 ≤ loc.all_ref_waypoints.length)
    (hj : j < loc.all_ref_waypoints.length) :
    (locate_waypoints_around loc (wpAt loc j)).1 = j := by
  have hne : loc.all_ref_waypoints ≠ [] := by
    intro hnil
    rw [hnil] at h3
    simp at h3
  rw [locate_fst loc _ hne]
  have hq : wpAt loc j = loc.all_ref_waypoints.get ⟨j, hj⟩ := by
    unfold wpAt
    rw [List.getD_eq_getElem?_getD, List.getElem?_eq_getElem hj]
    simp [List.get_eq_getElem]
  rcases kdtreeQuery_val_eq (wpAt loc j) hne with ⟨hm, hval⟩
  have hmin := kdtreeQuery_min (wpAt loc j) j hj
  rw [← hq] at hmin
  have hzero : (kdtreeQuery loc.all_ref_waypoints (wpAt loc j)).1 = 0 := by
    have h1 : distSq (wpAt loc j) (wpAt loc j) = 0 := distSq_self _
    have h2 := distSq_nonneg (wpAt loc j)
      (loc.all_ref_waypoints.get
        ⟨(kdtreeQuery loc.all_ref_waypoints (wpAt loc j)).2, hm⟩)
    rw [hval]
    rw [h1] at hmin
    rw [hval] at hmin
    linarith
  rw [hval] at hzero
  have heqp : wpAt loc j =
      loc.all_ref_waypoints.get
        ⟨(kdtreeQuery loc.all_ref_waypoints (wpAt loc j)).2, hm⟩ :=
    distSq_eq_zero_iff.mp hzero
  have hgets : loc.all_ref_waypoints.get
      ⟨(kdtreeQuery loc.all_ref_waypoints (wpAt loc j)).2, hm⟩ =
      loc.all_ref_waypoints.get ⟨j, hj⟩ := by
    rw [← heqp, hq]
  have := (hnd.get_inj_iff).mp hgets
  have hfin : (kdtreeQuery loc.all_ref_waypoints (wpAt loc j)).2 = j :=
    congrArg Fin.val this
  exact hfin

/-- Witness for the amended C9 at the unit square, waypoint 1. -/
theorem locate_at_waypoint_nearest_witness :
    squareLoc.all_ref_waypoints.Nodup ∧
    3 ≤ squareLoc.all_ref_waypoints.length ∧
    1 < squareLoc.all_ref_waypoints.length ∧
    (locate_waypoints_around squareLoc (wpAt squareLoc 1)).1 = 1 := by
  have hw := squareLoc_wps
  have hnd : squareLoc.all_ref_waypoints.Nodup := by
    rw [hw]
    norm_num [squareWps]
  have h3 : 3 ≤ squareLoc.all_ref_waypoints.length := by
    rw [hw]
    decide
  have hj : 1 < squareLoc.all_ref_waypoints.length := by
    rw [hw]
    decide
  exact ⟨hnd, h3, hj, locate_at_waypoint_nearest squareLoc 1 hnd h3 hj⟩

/-- Counterexample to C9 as stated: on the 3-waypoint path whose waypoint 2
duplicates waypoint 0's position, querying at waypoint 2's exact position
returns `nearest = 0`, not 2 (the nearest-neighbour query returns the first
index at squared distance 0). -/
theorem locate_duplicate_position_cex :
    2 < dupLoc.all_ref_waypoints.length ∧
    wpAt dupLoc 2 = (⟨0, 0⟩ : Position) ∧
    (locate_waypoints_around dupLoc ⟨0, 0⟩).1 ≠ 2 := by
  have hw := dupLoc_wps
  have hne : dupLoc.all_ref_waypoints ≠ [] := by
    rw [hw]
    decide
  refine ⟨by rw [hw]; decide, by unfold wpAt; rw [hw]; rfl, ?_⟩
  rw [locate_fst _ _ hne]
  have hni : nearestIdx dupLoc ⟨0, 0⟩ = 0 := by
    unfold nearestIdx
    rw [hw]
    norm_num [kdtreeQuery, kdtreeQueryGo, distSq, dupWps]
  rw [hni]
  decide

lemma getLast?_cons_eq (a : ℝ) (l : List ℝ) : (a :: l).getLast? = some (l.getLastD a) := by
  induction l generalizing a with
  | nil => rfl
  | cons b t ih =>
      rw [List.getLast?_cons_cons, ih b, List.getLastD_cons]

/-- C6 (confirmed): the cosine helper is total; whenever either vector has
zero length (so the product of the norms is 0), it returns exactly 1, and the
division branch is only ever taken with a nonzero denominator. -/
theorem cos_zero_vector_total (v1 v2 : ℚ × ℚ) :
    ((norm2 v1 = 0 ∨ norm2 v2 = 0) → get_cos_angle_between v1 v2 = 1) ∧
    (get_cos_angle_between v1 v2 = 1 ∨
      (norm2 v1 * norm2 v2 ≠ 0 ∧
        get_cos_angle_between v1 v2 =
          ((dotQ v1 v2 : ℚ) : ℝ) / (norm2 v1 * norm2 v2))) := by
  constructor
  · intro h
    have hprod : norm2 v1 * norm2 v2 = 0 := by
      rcases h with h | h
      · rw [h, zero_mul]
      · rw [h, mul_zero]
    simp only [get_cos_angle_between, hprod, if_pos]
  · by_cases h : norm2 v1 * norm2 v2 = 0
    · left
      simp only [get_cos_angle_between, h, if_pos]
    · right
      refine ⟨h, ?_⟩
      simp only [get_cos_angle_between, h, if_neg, if_false]

/-- Witness for C6: the zero vector against (1, 0) yields cosine 1. -/
theorem cos_zero_vector_total_witness :
    norm2 (0, 0) = 0 ∧ get_cos_angle_between (0, 0) ((1 : ℚ), (0 : ℚ)) = 1 :=
  ⟨norm2_zero, (cos_zero_vector_total (0, 0) (1, 0)).1 (Or.inl norm2_zero)⟩

/-- C2 (confirmed): for every constructed locator on at least 3 raw waypoints,
the Frenet arc-length sequence has one entry per waypoint, starts at exactly 0,
is non-decreasing in path order, increases at each step by exactly the
Euclidean distance between the consecutive waypoint positions, and ends at
`length_of_track`. -/
theorem build_frenet_spec (base : List Position) (h : 3 ≤ base.length) :
    (build base).waypoints_frenet_s.length = (build base).all_ref_waypoints.length ∧
    (build base).waypoints_frenet_s.head? = some 0 ∧
    List.Pairwise (· ≤ ·) (build base).waypoints_frenet_s ∧
    (∀ m, m + 1 < (build base).waypoints_frenet_s.length →
      (build base).waypoints_frenet_s.getD (m + 1) 0 =
        (build base).waypoints_frenet_s.getD m 0 +
          dist2d ((build base).all_ref_waypoints.getD m ⟨0, 0⟩)
            ((build base).all_ref_waypoints.getD (m + 1) ⟨0, 0⟩)) ∧
    (build base).waypoints_frenet_s.getLast? = some (build base).length_of_track := by
  have hne := deal_overlap_ne_nil (l := base) h
  obtain ⟨w, rest, hl⟩ : ∃ w rest, deal_base_waypoints_overlap base = w :: rest := by
    cases hc : deal_base_waypoints_overlap base with
    | nil => exact absurd hc hne
    | cons w rest => exact ⟨w, rest, rfl⟩
  have hb1 : (build base).all_ref_waypoints = w :: rest := by
    simp only [build]
    exact hl
  have hb2 : (build base).waypoints_frenet_s = 0 :: (accumulateS w rest 0).1 := by
    simp only [build]
    rw [hl, computeFrenetS_fst]
  have hb3 : (build base).length_of_track = (accumulateS w rest 0).2 := by
    simp only [build]
    rw [hl, computeFrenetS_snd]
  rw [hb1, hb2, hb3]
  refine ⟨?_, rfl, ?_, ?_, ?_⟩
  · simp [accumulateS_length]
  · exact List.chain'_iff_pairwise.mp (accumulateS_chain rest w 0)
  · intro m hm
    have hm' : m + 1 < (w :: rest).length := by
      simp only [List.length_cons, accumulateS_length] at hm ⊢
      exact hm
    exact accumulateS_step rest w 0 m hm'
  · rw [accumulateS_total, getLast?_cons_eq]

/-- Witness for C2 at the unit square. -/
theorem build_frenet_spec_witness :
    3 ≤ squareWps.length ∧
    ((build squareWps).waypoints_frenet_s.length =
        (build squareWps).all_ref_waypoints.length ∧
    (build squareWps).waypoints_frenet_s.head? = some 0 ∧
    List.Pairwise (· ≤ ·) (build squareWps).waypoints_frenet_s ∧
    (∀ m, m + 1 < (build squareWps).waypoints_frenet_s.length →
      (build squareWps).waypoints_frenet_s.getD (m + 1) 0 =
        (build squareWps).waypoints_frenet_s.getD m 0 +
          dist2d ((build squareWps).all_ref_waypoints.getD m ⟨0, 0⟩)
            ((build squareWps).all_ref_waypoints.getD (m + 1) ⟨0, 0⟩)) ∧
    (build squareWps).waypoints_frenet_s.getLast? =
      some (build squareWps).length_of_track) :=
  ⟨by decide, build_frenet_spec squareWps (by decide)⟩

/-- Counterexample to C4 as stated: on the 4-waypoint unit square the integer
midpoint index `4 / 2 = 2` is NOT among the scanned candidate indices (Python
`range(n-1, n/2, -1)` excludes its stop value). -/
theorem scan_excludes_midpoint_cex :
    squareWps.length / 2 ∉ scannedIndices squareWps := by
  decide

/-- C4 (amended): the loop-closure scan starts at the last index `n - 1` and
descends, and its inclusive lower bound is `n / 2 + 1`: exactly the indices
`i` with `n / 2 < i ≤ n - 1` are scanned, and the integer midpoint `n / 2`
itself is excluded. -/
theorem scan_range_amended (l : List Position) (h : 3 ≤ l.length) :
    (scannedIndices l).head? = some (l.length - 1) ∧
    (∀ i, i ∈ scannedIndices l ↔ l.length / 2 + 1 ≤ i ∧ i ≤ l.length - 1) ∧
    (scannedIndices l).Pairwise (· > ·) ∧
    l.length / 2 ∉ scannedIndices l := by
  have hlt : l.length / 2 < l.length - 1 := by omega
  refine ⟨?_, ?_, scannedIndices_pairwise l, ?_⟩
  · unfold scannedIndices
    rw [pyRangeDown_cons hlt]
    rfl
  · intro i
    rw [mem_scannedIndices]
    omega
  · rw [mem_scannedIndices]
    omega

/-- Witness for the amended C4 at the unit square. -/
theorem scan_range_amended_witness :
    3 ≤ squareWps.length ∧
    ((scannedIndices squareWps).head? = some (squareWps.length - 1) ∧
    (∀ i, i ∈ scannedIndices squareWps ↔
      squareWps.length / 2 + 1 ≤ i ∧ i ≤ squareWps.length - 1) ∧
    (scannedIndices squareWps).Pairwise (· > ·) ∧
    squareWps.length / 2 ∉ scannedIndices squareWps) :=
  ⟨by decide, scan_range_amended squareWps (by decide)⟩

/-- C5 (confirmed): if some scanned index qualifies (negative dot product and
distance to waypoint 0 under 15), the list is truncated to `[0, i]` for the
largest qualifying scanned index `i`; if none qualifies, the list is returned
unchanged (a recoverable condition, no error). -/
theorem overlap_trim_spec (l : List Position) (h : 3 ≤ l.length) :
    ((∃ i ∈ scannedIndices l, qualifies l i) →
      ∃ i ∈ scannedIndices l, qualifies l i ∧
        (∀ j ∈ scannedIndices l, qualifies l j → j ≤ i) ∧
        deal_base_waypoints_overlap l = l.take (i + 1)) ∧
    ((∀ i ∈ scannedIndices l, ¬ qualifies l i) →
      deal_base_waypoints_overlap l = l) := by
  constructor
  · rintro ⟨i0, hi0, hq0⟩
    cases hfe : findEndIdx l (scannedIndices l) with
    | none => exact absurd hq0 (findEndIdx_eq_none_iff.mp hfe i0 hi0)
    | some i =>
        rcases findEndIdx_eq_some hfe with ⟨hmem, hq⟩
        exact ⟨i, hmem, hq, findEndIdx_largest (scannedIndices_pairwise l) hfe,
          deal_overlap_of_some hfe⟩
  · intro hnone
    exact deal_overlap_of_none (findEndIdx_eq_none_iff.mpr hnone)

/-- Witness for C5 at the unit square. -/
theorem overlap_trim_spec_witness :
    3 ≤ squareWps.length ∧
    (((∃ i ∈ scannedIndices squareWps, qualifies squareWps i) →
      ∃ i ∈ scannedIndices squareWps, qualifies squareWps i ∧
        (∀ j ∈ scannedIndices squareWps, qualifies squareWps j → j ≤ i) ∧
        deal_base_waypoints_overlap squareWps = squareWps.take (i + 1)) ∧
    ((∀ i ∈ scannedIndices squareWps, ¬ qualifies squareWps i) →
      deal_base_waypoints_overlap squareWps = squareWps)) :=
  ⟨by decide, overlap_trim_spec squareWps (by decide)⟩

/-- C8 (confirmed): loop-closure trimming is idempotent; a second pass over the
trimmed list finds the same qualifying end index first (or nothing, if nothing
was trimmed) and removes nothing. -/
theorem overlap_trim_idempotent (l : List Position) (h : 3 ≤ l.length) :
    deal_base_waypoints_overlap (deal_base_waypoints_overlap l) =
      deal_base_waypoints_overlap l := by
  cases hfe : findEndIdx l (scannedIndices l) with
  | none =>
      have hl := deal_overlap_of_none hfe
      rw [hl]
      exact hl
  | some i =>
      have hl := deal_overlap_of_some hfe
      rcases findEndIdx_eq_some hfe with ⟨hmem, hq⟩
      rcases mem_scannedIndices.mp hmem with ⟨h1, h2⟩
      have hlen' : (l.take (i + 1)).length = i + 1 := by
        rw [List.length_take]
        omega
      have g0 := getD_take_eq (l := l) (n := i + 1) (m := 0) (by omega)
      have g1 := getD_take_eq (l := l) (n := i + 1) (m := 1) (by omega)
      have gi := getD_take_eq (l := l) (n := i + 1) (m := i) (by omega)
      have hq' : qualifies (l.take (i + 1)) i := by
        unfold qualifies vector_start_2nd vector_1st_to at hq ⊢
        rw [g0, g1, gi]
        exact hq
      have hscan' : scannedIndices (l.take (i + 1)) =
          i :: pyRangeDown (i - 1) ((i + 1) / 2) := by
        unfold scannedIndices
        rw [hlen']
        have hstep : i + 1 - 1 = i := by omega
        rw [hstep, pyRangeDown_cons (by omega)]
      have hfe' : findEndIdx (l.take (i + 1)) (scannedIndices (l.take (i + 1))) =
          some i := by
        rw [hscan']
        exact findEndIdx_cons_of_qualifies _ hq'
      have hl' := deal_overlap_of_some hfe'
      rw [hl, hl']
      exact List.take_of_length_le (le_of_eq hlen')

/-- Witness for C8 at the unit square. -/
theorem overlap_trim_idempotent_witness :
    3 ≤ squareWps.length ∧
    deal_base_waypoints_overlap (deal_base_waypoints_overlap squareWps) =
      deal_base_waypoints_overlap squareWps :=
  ⟨by decide, overlap_trim_idempotent squareWps (by decide)⟩

/-- C10 (confirmed): the trimming operation returns a prefix of its input, and
that prefix keeps at least `n / 2 + 2` waypoints — strictly more than half of
the input is always retained. -/
theorem overlap_trim_keeps_majority (l : List Position) (h : 3 ≤ l.length) :
    (∃ t, deal_base_waypoints_overlap l ++ t = l) ∧
    l.length / 2 + 2 ≤ (deal_base_waypoints_overlap l).length :=
  ⟨(deal_overlap_length l h).2, (deal_overlap_length l h).1⟩

/-- Witness for C10 at the unit square. -/
theorem overlap_trim_keeps_majority_witness :
    3 ≤ squareWps.length ∧
    ((∃ t, deal_base_waypoints_overlap squareWps ++ t = squareWps) ∧
    squareWps.length / 2 + 2 ≤ (deal_base_waypoints_overlap squareWps).length) :=
  ⟨by decide, overlap_trim_keeps_majority squareWps (by decide)⟩

/-! The closed-square scenario. -/

lemma squareClosed_scan (p : Position) : scannedIndices (squareClosed p) = [4, 3] := by
  have hlen : (squareClosed p).length = 5 := by
    simp [squareClosed]
  unfold scannedIndices
  rw [hlen]
  decide

lemma squareClosed_wps_len (p : Position) (hp : dist2d ⟨0, 0⟩ p < 15) :
    (build (squareClosed p)).all_ref_waypoints.length = 5 := by
  have hscan := squareClosed_scan p
  simp only [build]
  by_cases hdot : dotQ (vector_start_2nd (squareClosed p))
      (vector_1st_to (squareClosed p) 4) < 0
  · have hq : qualifies (squareClosed p) 4 := by
      refine ⟨hdot, ?_⟩
      have h0 : (squareClosed p).getD 0 ⟨0, 0⟩ = ⟨0, 0⟩ := by
        simp [squareClosed]
      have h4 : (squareClosed p).getD 4 ⟨0, 0⟩ = p := by
        simp [squareClosed]
      rw [h0, h4]
      exact hp
    have hfe : findEndIdx (squareClosed p) (scannedIndices (squareClosed p)) =
        some 4 := by
      rw [hscan]
      exact findEndIdx_cons_of_qualifies _ hq
    rw [deal_overlap_of_some hfe, List.length_take]
    simp [squareClosed]
  · have hnq4 : ¬ qualifies (squareClosed p) 4 := fun hq => absurd hq.1 hdot
    have hnq3 : ¬ qualifies (squareClosed p) 3 := by
      intro hq3
      have hd3 : dotQ (vector_start_2nd (squareClosed p))
          (vector_1st_to (squareClosed p) 3) = 0 := by
        norm_num [dotQ, vector_start_2nd, vector_1st_to, squareClosed]
      have hlt := hq3.1
      rw [hd3] at hlt
      exact absurd hlt (lt_irrefl 0)
    have hfe : findEndIdx (squareClosed p) (scannedIndices (squareClosed p)) =
        none := by
      rw [hscan, findEndIdx_cons, if_neg hnq4, findEndIdx_cons, if_neg hnq3]
      rfl
    rw [deal_overlap_of_none hfe]
    simp [squareClosed]

lemma squareClosed_origin_trim :
    deal_base_waypoints_overlap (squareClosed ⟨0, 0⟩) = squareClosed ⟨0, 0⟩ := by
  have hscan := squareClosed_scan (⟨0, 0⟩ : Position)
  have hnq4 : ¬ qualifies (squareClosed ⟨0, 0⟩) 4 := by
    intro hq
    have hd : dotQ (vector_start_2nd (squareClosed ⟨0, 0⟩))
        (vector_1st_to (squareClosed ⟨0, 0⟩) 4) = 0 := by
      norm_num [dotQ, vector_start_2nd, vector_1st_to, squareClosed]
    have hlt := hq.1
    rw [hd] at hlt
    exact absurd hlt (lt_irrefl 0)
  have hnq3 : ¬ qualifies (squareClosed ⟨0, 0⟩) 3 := by
    intro hq
    have hd : dotQ (vector_start_2nd (squareClosed ⟨0, 0⟩))
        (vector_1st_to (squareClosed ⟨0, 0⟩) 3) = 0 := by
      norm_num [dotQ, vector_start_2nd, vector_1st_to, squareClosed]
    have hlt := hq.1
    rw [hd] at hlt
    exact absurd hlt (lt_irrefl 0)
  have hfe : findEndIdx (squareClosed ⟨0, 0⟩)
      (scannedIndices (squareClosed ⟨0, 0⟩)) = none := by
    rw [hscan, findEndIdx_cons, if_neg hnq4, findEndIdx_cons, if_neg hnq3]
    rfl
  exact deal_overlap_of_none hfe

lemma dist2d_of_distSq_hundred (p q : Position) (h : distSq p q = 100) :
    dist2d p q = 10 := by
  unfold dist2d
  rw [h, show ((100 : ℚ) : ℝ) = 10 ^ 2 by norm_num]
  exact Real.sqrt_sq (by norm_num)

lemma squareClosed_origin_total :
    (build (squareClosed ⟨0, 0⟩)).length_of_track = 40 := by
  simp only [build]
  rw [squareClosed_origin_trim]
  have hd1 : dist2d ⟨0, 0⟩ ⟨10, 0⟩ = 10 :=
    dist2d_of_distSq_hundred _ _ (by norm_num [distSq])
  have hd2 : dist2d ⟨10, 0⟩ ⟨10, 10⟩ = 10 :=
    dist2d_of_distSq_hundred _ _ (by norm_num [distSq])
  have hd3 : dist2d ⟨10, 10⟩ ⟨0, 10⟩ = 10 :=
    dist2d_of_distSq_hundred _ _ (by norm_num [distSq])
  have hd4 : dist2d ⟨0, 10⟩ ⟨0, 0⟩ = 10 :=
    dist2d_of_distSq_hundred _ _ (by norm_num [distSq])
  simp only [squareClosed, computeFrenetS, accumulateS, hd1, hd2, hd3, hd4]
  norm_num

/-- Counterexample to C7 as stated: with the closing duplicate exactly at
(0, 0), the built path keeps all 5 waypoints — the trimming never yields a
4-point path here, because truncation to `[0, end_idx]` with `end_idx = 4`
would keep the whole list, and with this closing point no scanned index even
has a negative dot product. -/
theorem square_closed_build_cex :
    (build (squareClosed ⟨0, 0⟩)).all_ref_waypoints.length = 5 ∧
    ¬ (build (squareClosed ⟨0, 0⟩)).all_ref_waypoints.length = 4 := by
  have h5 : (build (squareClosed ⟨0, 0⟩)).all_ref_waypoints.length = 5 := by
    simp only [build]
    rw [squareClosed_origin_trim]
    simp [squareClosed]
  refine ⟨h5, ?_⟩
  rw [h5]
  decide

/-- C7 (amended): for the unit square corners followed by one closing point
within 15 units of (0, 0), `build` always keeps all 5 waypoints (a single
closing duplicate at the last index is never removed), and with the closing
point exactly at (0, 0) the total length is 40 (the full perimeter including
the closing segment). -/
theorem square_closed_build_amended (p : Position) (hp : dist2d ⟨0, 0⟩ p < 15) :
    (build (squareClosed p)).all_ref_waypoints.length = 5 ∧
    (p = ⟨0, 0⟩ → (build (squareClosed p)).length_of_track = 40) := by
  refine ⟨squareClosed_wps_len p hp, ?_⟩
  intro hp0
  subst hp0
  exact squareClosed_origin_total

/-- Witness for the amended C7 with the closing point exactly (0, 0). -/
theorem square_closed_build_amended_witness :
    dist2d ⟨0, 0⟩ (⟨0, 0⟩ : Position) < 15 ∧
    ((build (squareClosed ⟨0, 0⟩)).all_ref_waypoints.length = 5 ∧
    ((⟨0, 0⟩ : Position) = ⟨0, 0⟩ →
      (build (squareClosed ⟨0, 0⟩)).length_of_track = 40)) := by
  have hp : dist2d ⟨0, 0⟩ (⟨0, 0⟩ : Position) < 15 := by
    unfold dist2d
    rw [distSq_self]
    norm_num
  exact ⟨hp, square_closed_build_amended ⟨0, 0⟩ hp⟩
